import Mathlib

/-!
Verification of the discontinuous-Galerkin advection scheme of
`02-advection.ipynb` (danshapero/firedrake-binder).

The notebook builds, for a scalar field `h` advected by a velocity `u`, the
upwind DG weak form

  F        = h * max_value(inner(u, n), 0)
  edge_flux = (F('+') - F('-')) * (q('+') - q('-')) * dS
  in_flux  = h0 * min_value(inner(u, n), 0) * q * ds
  out_flux = h * max_value(inner(u, n), 0) * q * ds
  dh_dt    = -(edge_flux + in_flux + out_flux)
  M        = p * q * dx

and advances `h` by the loop

  for step in tqdm.trange(num_steps):
      firedrake.solve(M == dt * dh_dt, dh, **parameters)
      h.assign(h + dh)

with `num_steps = int(final_time / timestep) + 1` and
`dt = final_time / num_steps`.

For the degree-0 space the notebook states (and it is classical) that this
discretization is exactly the first-order finite-volume method: testing the
weak form against the indicator function of a cell `K` yields a per-cell
balance of edge fluxes, and the mass matrix is diagonal with the cell areas.
The embedding below follows that reduction: real numbers are modelled by `ℚ`
(the scheme is exact rational arithmetic once the mesh data is rational),
a mesh is a list of interior edges (two adjacent cells, an arbitrarily
oriented unit normal, the integrated normal velocity) and boundary edges
(one cell), and the per-edge integrands are transcribed literally from the
notebook's expressions.
-/

/-- The upwind numerical flux of the notebook, `F = h * max_value(inner(u, n), 0)`,
as a function of the scalar value `h` on one side of an edge and of the normal
velocity `s = inner(u, n)` seen from that side. -/
def F (h s : ℚ) : ℚ := h * max s 0

/-- The value on the upwind side of an edge: the side whose outward normal
velocity `s` (measured from the `+` side) is nonnegative, i.e. the cell the
flow is leaving. -/
def upwindValue (s hplus hminus : ℚ) : ℚ := if 0 ≤ s then hplus else hminus

/-- The interior-edge integrand of the notebook,
`(F('+') - F('-')) * (q('+') - q('-'))`.  Restricting an expression to the
`-` side flips the facet normal, so the `-` side sees normal velocity `-s`. -/
def edgeFluxInt (hplus hminus s qplus qminus : ℚ) : ℚ :=
  (F hplus s - F hminus (-s)) * (qplus - qminus)

/-- The inflow boundary integrand of the notebook,
`h0 * min_value(inner(u, n), 0) * q`, with `hin` the prescribed inflow value. -/
def inFluxInt (hin s q : ℚ) : ℚ := hin * min s 0 * q

/-- The outflow boundary integrand of the notebook,
`h * max_value(inner(u, n), 0) * q`, with `h` the interior value. -/
def outFluxInt (h s q : ℚ) : ℚ := h * max s 0 * q

/-- C2: for every edge, the assembled numerical flux `F('+') - F('-')`
(the net flux through the edge in the direction of the `+` side's outward
normal, whose normal velocity is `s`; the `-` side sees `-s`) equals the
upwind value — the value from the cell the flow is leaving — times the
normal velocity; in particular the side with `max(velocity·normal, 0) = 0`
contributes nothing and only the upwind side's value enters. -/
theorem edge_flux_is_upwind (hplus hminus s : ℚ) :
    F hplus s - F hminus (-s) = upwindValue s hplus hminus * s := by
  rcases le_or_lt 0 s with hs | hs
  · have h1 : max s 0 = s := max_eq_left hs
    have h2 : max (-s) 0 = 0 := max_eq_right (neg_nonpos.mpr hs)
    simp [F, upwindValue, h1, h2, if_pos hs]
  · have h1 : max s 0 = 0 := max_eq_right hs.le
    have h2 : max (-s) 0 = -s := max_eq_left (neg_nonneg.mpr hs.le)
    simp [F, upwindValue, h1, h2, if_neg (not_le.mpr hs)]

/-- C3: for every interior edge, swapping which adjacent cell is labelled
`+` and which `-` (which also flips the facet normal, so the normal velocity
seen from the new `+` side is `-s`) leaves the edge-flux integrand
`(F('+') - F('-')) * (q('+') - q('-'))` unchanged: both factors flip sign. -/
theorem edge_flux_label_invariant (hplus hminus s qplus qminus : ℚ) :
    edgeFluxInt hminus hplus (-s) qminus qplus
      = edgeFluxInt hplus hminus s qplus qminus := by
  simp only [edgeFluxInt, neg_neg]
  ring

/-- C7: for every boundary edge, the boundary-flux integrand
`in_flux + out_flux` equals the prescribed inflow value `hin` times the
normal velocity (times the test function) where `velocity·normal < 0`, and
the interior value `h` times the normal velocity where `velocity·normal ≥ 0`. -/
theorem boundary_flux_upwind (hin h s q : ℚ) :
    inFluxInt hin s q + outFluxInt h s q = (if s < 0 then hin else h) * s * q := by
  rcases lt_or_le s 0 with hs | hs
  · have h1 : min s 0 = s := min_eq_left hs.le
    have h2 : max s 0 = 0 := max_eq_right hs.le
    simp [inFluxInt, outFluxInt, h1, h2, if_pos hs]
  · have h1 : min s 0 = 0 := min_eq_right hs
    have h2 : max s 0 = s := max_eq_left hs
    simp [inFluxInt, outFluxInt, h1, h2, if_neg (not_lt.mpr hs)]

/-- An interior edge of the mesh: the two adjacent cells (arbitrarily
labelled `+` and `-`), the edge length, and the normal velocity
`s = inner(u, n)` seen from the `+` side. -/
structure IEdge (n : Nat) where
  plus : Fin n
  minus : Fin n
  len : ℚ
  s : ℚ
deriving DecidableEq

/-- A boundary edge of the mesh: the one adjacent cell, the edge length, and
the outward normal velocity `s = inner(u, n)`. -/
structure BEdge (n : Nat) where
  cell : Fin n
  len : ℚ
  s : ℚ
deriving DecidableEq

/-- A mesh with `n` cells for the degree-0 (piecewise-constant) space:
per-cell areas and the lists of interior and boundary edges. -/
structure FVMesh (n : Nat) where
  area : Fin n → ℚ
  interior : List (IEdge n)
  boundary : List (BEdge n)

/-- The jump `q('+') - q('-')` across an interior edge of the degree-0 basis
function of cell `K` (the indicator function of `K`). -/
def indJump {n : Nat} (e : IEdge n) (K : Fin n) : ℚ :=
  (if e.plus = K then 1 else 0) - (if e.minus = K then 1 else 0)

/-- The contribution of one interior edge to the `edge_flux` term
`(F('+') - F('-')) * (q('+') - q('-')) * dS` tested against the indicator
of cell `K`; the surface measure contributes the edge length. -/
def edgeFluxAt {n : Nat} (h : Fin n → ℚ) (e : IEdge n) (K : Fin n) : ℚ :=
  edgeFluxInt (h e.plus) (h e.minus) e.s 
    (if e.plus = K then 1 else 0) (if e.minus = K then 1 else 0) * e.len

/-- The contribution of one boundary edge to `in_flux + out_flux` tested
against the indicator of cell `K`: the inflow term uses the prescribed
inflow field `hin` (the notebook passes `h0`), the outflow term the current
state `h`. -/
def bdryFluxAt {n : Nat} (hin h : Fin n → ℚ) (e : BEdge n) (K : Fin n) : ℚ :=
  (inFluxInt (hin e.cell) e.s (if e.cell = K then 1 else 0)
    + outFluxInt (h e.cell) e.s (if e.cell = K then 1 else 0)) * e.len

/-- The right-hand side `dh_dt = -(edge_flux + in_flux + out_flux)` of the
notebook, tested against the indicator basis function of cell `K`. -/
def dhdt {n : Nat} (m : FVMesh n) (hin h : Fin n → ℚ) (K : Fin n) : ℚ :=
  -((m.interior.map (fun e => edgeFluxAt h e K)).sum
    + (m.boundary.map (fun e => bdryFluxAt hin h e K)).sum)

/-- The mass matrix `M = p * q * dx` of the degree-0 space in the indicator
basis: `∫ p_K q_L dx` is the cell area when `K = L` and zero otherwise. -/
def massMatrix {n : Nat} (m : FVMesh n) (K L : Fin n) : ℚ :=
  if K = L then m.area K else 0

/-- Matrix-vector product, used to state the mass-matrix linear system. -/
def matVec {n : Nat} (A : Fin n → Fin n → ℚ) (x : Fin n → ℚ) (K : Fin n) : ℚ :=
  ∑ L : Fin n, A K L * x L

/-- The per-timestep increment `dh` solving `M == dt * dh_dt` for the
degree-0 space: the mass matrix is diagonal with the cell areas, so the
solve reduces to a per-cell scaling. -/
def increment {n : Nat} (m : FVMesh n) (dt : ℚ) (hin h : Fin n → ℚ) (K : Fin n) : ℚ :=
  dt * dhdt m hin h K / m.area K

/-- One pass of the notebook's loop body:
`firedrake.solve(M == dt * dh_dt, dh); h.assign(h + dh)`. -/
def advStep {n : Nat} (m : FVMesh n) (dt : ℚ) (hin h : Fin n → ℚ) : Fin n → ℚ :=
  fun K => h K + increment m dt hin h K

/-- The notebook's time-stepping loop, run for `N` steps from the initial
state `h0`; the inflow field of `in_flux` is the initial state `h0` itself
and is never reassigned by the loop. -/
def run {n : Nat} (m : FVMesh n) (dt : ℚ) (h0 : Fin n → ℚ) (N : Nat) : Fin n → ℚ :=
  (advStep m dt h0)^[N] h0

/-- C4: on every timestep, the increment added to the state solves the
mass-matrix linear system `M · increment = Δt · dh_dt` (the right-hand side
being the sum of the flux terms), the mass matrix of the degree-0 space
being diagonal with the cell areas so that the solve is the per-cell
scaling `increment K = Δt · dh_dt K / area K`; and the new state is the old
state plus this increment. -/
theorem mass_matrix_system (n : Nat) (m : FVMesh n) (dt : ℚ) (hin h : Fin n → ℚ)
    (hpos : ∀ K, 0 < m.area K) (K : Fin n) :
    matVec (massMatrix m) (increment m dt hin h) K = dt * dhdt m hin h K
      ∧ increment m dt hin h K = dt * dhdt m hin h K / m.area K
      ∧ advStep m dt hin h K = h K + increment m dt hin h K := by
  refine ⟨?_, rfl, rfl⟩
  have hdiag : ∀ L : Fin n, massMatrix m K L * increment m dt hin h L
      = if K = L then m.area K * increment m dt hin h K else 0 := by
    intro L
    by_cases hKL : K = L
    · subst hKL; simp [massMatrix]
    · simp [massMatrix, hKL]
  rw [matVec]
  rw [Finset.sum_congr rfl (fun L _ => hdiag L)]
  rw [Finset.sum_ite_eq Finset.univ K (fun _ => m.area K * increment m dt hin h K)]
  simp only [Finset.mem_univ, if_true]
  rw [increment]
  field_simp
  exact mul_div_cancel_left₀ _ (ne_of_gt (hpos K))

/-- The notebook's step count, `num_steps = int(final_time / timestep) + 1`;
Python's `int` truncates toward zero, which on positive values is the floor. -/
def numSteps (finalTime timestep : ℚ) : ℤ := ⌊finalTime / timestep⌋ + 1

/-- The notebook's recomputed per-step size,
`dt = Constant(final_time / num_steps)`. -/
def dtOf (finalTime timestep : ℚ) : ℚ :=
  finalTime / (numSteps finalTime timestep : ℚ)

/-- C5 (counterexample): the step count is not `ceil(final_time / timestep)`:
when the ratio is an exact integer, `int(final_time / timestep) + 1` is one
more than the ceiling, e.g. `final_time = 2`, `timestep = 1` gives 3 steps,
not `⌈2⌉ = 2`. -/
theorem num_steps_not_ceil : numSteps 2 1 ≠ ⌈(2 : ℚ) / 1⌉ := by
  norm_num [numSteps]

/-- C5 (amended): for positive `final_time` and `timestep`, the loop runs a
fixed, precomputed step count equal to `floor(final_time / timestep) + 1`
(one more than the ceiling when the ratio is an exact integer, the ceiling
otherwise), the count is positive, and the per-step Δt is recomputed as
`final_time / num_steps` so that the steps divide the simulation interval
exactly: `num_steps * Δt = final_time`. -/
theorem num_steps_divides (finalTime timestep : ℚ)
    (hft : 0 < finalTime) (hts : 0 < timestep) :
    numSteps finalTime timestep = ⌊finalTime / timestep⌋ + 1
      ∧ 0 < numSteps finalTime timestep
      ∧ (numSteps finalTime timestep : ℚ) * dtOf finalTime timestep = finalTime := by
  have h1 : (0 : ℚ) < finalTime / timestep := div_pos hft hts
  have h2 : (0 : ℤ) ≤ ⌊finalTime / timestep⌋ := Int.floor_nonneg.mpr h1.le
  have h3 : 0 < numSteps finalTime timestep := by
    unfold numSteps; omega
  refine ⟨rfl, h3, ?_⟩
  have h4 : ((numSteps finalTime timestep : ℤ) : ℚ) ≠ 0 :=
    Int.cast_ne_zero.mpr (ne_of_gt h3)
  rw [dtOf]
  field_simp

/-- Witness for C5 at `final_time = 3`, `timestep = 2`: two steps of size
`3/2` cover the interval exactly. -/
theorem num_steps_divides_witness :
    (numSteps 3 2 : ℚ) * dtOf 3 2 = 3 :=
  (num_steps_divides 3 2 (by norm_num) (by norm_num)).2.2

/-- The degree-0 timestep of the notebook,
`timestep = dx_min / u_max / 2`. -/
def timestepDeg0 (dxMin uMax : ℚ) : ℚ := dxMin / uMax / 2

/-- The degree-1 timestep of the notebook,
`timestep = dx_min / u_max / 16`. -/
def timestepDeg1 (dxMin uMax : ℚ) : ℚ := dxMin / uMax / 16

/-- C6: the timestep is a fixed value chosen a priori from the CFL-type
bound `timestep ≤ min_cell_diameter / max_speed / safety_factor`, with
safety factor 2 for polynomial degree 0 and 16 for degree 1; the notebook
takes the bound with equality. -/
theorem cfl_timestep_bound (dxMin uMax : ℚ) :
    timestepDeg0 dxMin uMax ≤ dxMin / uMax / 2
      ∧ timestepDeg1 dxMin uMax ≤ dxMin / uMax / 16
      ∧ timestepDeg0 dxMin uMax = dxMin / uMax / 2
      ∧ timestepDeg1 dxMin uMax = dxMin / uMax / 16 :=
  ⟨le_refl _, le_refl _, rfl, rfl⟩

/-- The total mass `assemble(h * dx)` of a degree-0 field: the sum over the
cells of area times cell value. -/
def totalMass {n : Nat} (m : FVMesh n) (h : Fin n → ℚ) : ℚ :=
  ∑ K : Fin n, m.area K * h K

/-- The net flux of mass out through the domain boundary for the current
state `h` and prescribed inflow field `hin`: the sum over the boundary
edges of the inflow and outflow integrands (tested against 1, i.e. summed
over all cells). -/
def netBoundaryFlux {n : Nat} (m : FVMesh n) (hin h : Fin n → ℚ) : ℚ :=
  (m.boundary.map
    (fun e => (inFluxInt (hin e.cell) e.s 1 + outFluxInt (h e.cell) e.s 1) * e.len)).sum

/-- Exchanging a sum over the cells with a sum over a list of edges. -/
theorem sum_fin_list_sum {α : Type} {n : Nat} (l : List α) (f : Fin n → α → ℚ) :
    ∑ K : Fin n, (l.map (f K)).sum = (l.map (fun a => ∑ K : Fin n, f K a)).sum := by
  induction l with
  | nil => simp
  | cons a t ih => simp [List.map_cons, List.sum_cons, Finset.sum_add_distrib, ih]

/-- The contributions of one interior edge to the two adjacent cells cancel:
summed over all cells, an interior edge moves mass but creates none. -/
theorem sum_edgeFluxAt {n : Nat} (h : Fin n → ℚ) (e : IEdge n) :
    ∑ K : Fin n, edgeFluxAt h e K = 0 := by
  have hterm : ∀ K : Fin n, edgeFluxAt h e K
      = (F (h e.plus) e.s - F (h e.minus) (-e.s)) * e.len
          * ((if e.plus = K then (1 : ℚ) else 0) - (if e.minus = K then (1 : ℚ) else 0)) := by
    intro K
    simp only [edgeFluxAt, edgeFluxInt]
    ring
  rw [Finset.sum_congr rfl (fun K _ => hterm K), ← Finset.mul_sum]
  rw [Finset.sum_sub_distrib]
  rw [Finset.sum_ite_eq Finset.univ e.plus (fun _ => (1 : ℚ))]
  rw [Finset.sum_ite_eq Finset.univ e.minus (fun _ => (1 : ℚ))]
  simp

/-- Summed over all cells, a boundary edge contributes exactly its term in
the net boundary flux. -/
theorem sum_bdryFluxAt {n : Nat} (hin h : Fin n → ℚ) (e : BEdge n) :
    ∑ K : Fin n, bdryFluxAt hin h e K
      = (inFluxInt (hin e.cell) e.s 1 + outFluxInt (h e.cell) e.s 1) * e.len := by
  have hterm : ∀ K : Fin n, bdryFluxAt hin h e K
      = (if e.cell = K then
          (inFluxInt (hin e.cell) e.s 1 + outFluxInt (h e.cell) e.s 1) * e.len else 0) := by
    intro K
    by_cases hc : e.cell = K
    · simp [bdryFluxAt, hc]
    · simp [bdryFluxAt, hc, inFluxInt, outFluxInt]
  rw [Finset.sum_congr rfl (fun K _ => hterm K)]
  rw [Finset.sum_ite_eq Finset.univ e.cell]
  simp

/-- One step of the loop changes the total mass by exactly `-Δt` times the
net boundary flux of the state it started from: the interior-edge terms
cancel in pairs and only the boundary terms survive. -/
theorem totalMass_advStep {n : Nat} (m : FVMesh n) (dt : ℚ) (hin h : Fin n → ℚ)
    (hpos : ∀ K, 0 < m.area K) :
    totalMass m (advStep m dt hin h)
      = totalMass m h - dt * netBoundaryFlux m hin h := by
  have hinc : ∀ K : Fin n, m.area K * increment m dt hin h K = dt * dhdt m hin h K := by
    intro K
    rw [increment, mul_comm, div_mul_eq_mul_div, mul_div_assoc]
    rw [div_self (ne_of_gt (hpos K)), mul_one]
  have hsum : ∑ K : Fin n, dhdt m hin h K = -netBoundaryFlux m hin h := by
    simp only [dhdt, Finset.sum_neg_distrib, Finset.sum_add_distrib]
    rw [sum_fin_list_sum m.interior (fun K e => edgeFluxAt h e K)]
    rw [sum_fin_list_sum m.boundary (fun K e => bdryFluxAt hin h e K)]
    have hz : (m.interior.map (fun e => ∑ K : Fin n, edgeFluxAt h e K)).sum = 0 := by
      apply List.sum_eq_zero
      intro x hx
      rcases List.mem_map.mp hx with ⟨e, _, he⟩
      rw [← he, sum_edgeFluxAt]
    have hb : (m.boundary.map (fun e => ∑ K : Fin n, bdryFluxAt hin h e K)).sum
        = netBoundaryFlux m hin h := by
      rw [netBoundaryFlux]
      congr 1
      apply List.map_congr_left
      intro e _
      exact sum_bdryFluxAt hin h e
    rw [hz, hb, zero_add]
  calc totalMass m (advStep m dt hin h)
      = ∑ K : Fin n, (m.area K * h K + m.area K * increment m dt hin h K) := by
        simp [totalMass, advStep, mul_add]
    _ = totalMass m h + ∑ K : Fin n, m.area K * increment m dt hin h K := by
        rw [Finset.sum_add_distrib, totalMass]
    _ = totalMass m h + ∑ K : Fin n, dt * dhdt m hin h K := by
        rw [Finset.sum_congr rfl (fun K _ => hinc K)]
    _ = totalMass m h + dt * ∑ K : Fin n, dhdt m hin h K := by
        rw [Finset.mul_sum]
    _ = totalMass m h - dt * netBoundaryFlux m hin h := by
        rw [hsum]; ring

/-- C1: mass conservation.  If the cell areas are positive and the net
boundary flux vanishes at the state of every step of the run (inflow
exactly balancing outflow, in particular when the velocity is zero at the
boundary), then the total mass after `N` steps of the time-stepping loop
equals the total mass of the initial state — exactly, for every `N`, since
the embedding works in exact rational arithmetic. -/
theorem mass_conservation {n : Nat} (m : FVMesh n) (dt : ℚ) (h0 : Fin n → ℚ) (N : Nat)
    (hpos : ∀ K, 0 < m.area K)
    (hflux : ∀ k, netBoundaryFlux m h0 (run m dt h0 k) = 0) :
    totalMass m (run m dt h0 N) = totalMass m h0 := by
  induction N with
  | zero => rfl
  | succ N ih =>
      have hstep : run m dt h0 (N + 1) = advStep m dt h0 (run m dt h0 N) :=
        Function.iterate_succ_apply' _ _ _
      rw [hstep, totalMass_advStep m dt h0 (run m dt h0 N) hpos, hflux N, mul_zero,
        sub_zero, ih]

/-- A concrete two-cell closed mesh (its only edge is interior, so the
boundary list is empty), with a nonzero flux across the internal edge. -/
def closedMesh : FVMesh 2 := ⟨fun _ => 1, [⟨0, 1, 1, 2⟩], []⟩

/-- A concrete initial state on the two-cell mesh. -/
def twoCellH0 : Fin 2 → ℚ := fun K => if K = 0 then 3 else 5

/-- Witness for C1: on the closed two-cell mesh the net boundary flux is
identically zero, and after 3 steps the total mass is unchanged. -/
theorem mass_conservation_witness :
    totalMass closedMesh (run closedMesh (1/4) twoCellH0 3) = totalMass closedMesh twoCellH0 :=
  mass_conservation closedMesh (1/4) twoCellH0 3 (fun _ => by norm_num [closedMesh])
    (fun _ => rfl)

/-- C9: if the velocity field is identically zero — every interior and
boundary edge has normal velocity 0 — then every flux term vanishes, the
increment is zero, and the state after any number `N` of timesteps equals
the initial state exactly. -/
theorem zero_velocity_fixed {n : Nat} (m : FVMesh n) (dt : ℚ) (h0 : Fin n → ℚ) (N : Nat)
    (hint : ∀ e ∈ m.interior, e.s = 0) (hbd : ∀ e ∈ m.boundary, e.s = 0) :
    run m dt h0 N = h0 := by
  have hstep : advStep m dt h0 h0 = h0 := by
    funext K
    have hdz : dhdt m h0 h0 K = 0 := by
      rw [dhdt]
      have h1 : (m.interior.map (fun e => edgeFluxAt h0 e K)).sum = 0 := by
        apply List.sum_eq_zero
        intro x hx
        rcases List.mem_map.mp hx with ⟨e, he, hex⟩
        rw [← hex]
        have hs := hint e he
        simp [edgeFluxAt, edgeFluxInt, F, hs]
      have h2 : (m.boundary.map (fun e => bdryFluxAt h0 h0 e K)).sum = 0 := by
        apply List.sum_eq_zero
        intro x hx
        rcases List.mem_map.mp hx with ⟨e, he, hex⟩
        rw [← hex]
        have hs := hbd e he
        simp [bdryFluxAt, inFluxInt, outFluxInt, hs]
      rw [h1, h2]
      simp
    simp [advStep, increment, hdz]
  exact Function.iterate_fixed hstep N

/-- A concrete two-cell mesh whose velocity is identically zero: the normal
velocity is 0 on the interior edge and on both boundary edges. -/
def stillMesh : FVMesh 2 := ⟨fun _ => 1, [⟨0, 1, 1, 0⟩], [⟨0, 1, 0⟩, ⟨1, 1, 0⟩]⟩

/-- Witness for C9: on the zero-velocity two-cell mesh, 5 steps leave the
state unchanged. -/
theorem zero_velocity_fixed_witness : run stillMesh (1/3) twoCellH0 5 = twoCellH0 :=
  zero_velocity_fixed stillMesh (1/3) twoCellH0 5
    (fun e he => by
      simp only [stillMesh, List.mem_singleton] at he
      subst he
      rfl)
    (fun e he => by
      simp only [stillMesh, List.mem_cons, List.mem_singleton, List.not_mem_nil,
        or_false] at he
      rcases he with h | h <;> (subst h; rfl))

/-- The time-stepping loop generalized to an arbitrary per-step schedule of
inflow fields: step `k` assembles `in_flux` from `inflow k`. -/
def runSched {n : Nat} (m : FVMesh n) (dt : ℚ) (inflow : Nat → Fin n → ℚ)
    (h0 : Fin n → ℚ) : Nat → (Fin n → ℚ)
  | 0 => h0
  | N + 1 => advStep m dt (inflow N) (runSched m dt inflow h0 N)

/-- C10: the notebook's loop is the schedule that uses the projected
initial state `h0` as the prescribed inflow value at every step: the
inflow field of `in_flux` is held fixed for the entire simulation and is
never updated as the state evolves. -/
theorem inflow_held_fixed {n : Nat} (m : FVMesh n) (dt : ℚ) (h0 : Fin n → ℚ) (N : Nat) :
    run m dt h0 N = runSched m dt (fun _ => h0) h0 N := by
  induction N with
  | zero => rfl
  | succ N ih =>
      have h1 : run m dt h0 (N + 1) = advStep m dt h0 (run m dt h0 N) :=
        Function.iterate_succ_apply' _ _ _
      rw [h1, ih]
      rfl

/-- An affine shape function `a + b·x + c·y` on a cell, covering the
degree-0 and degree-1 polynomial spaces; its gradient is `(b, c)`. -/
structure AffineFn where
  a : ℚ
  b : ℚ
  c : ℚ
deriving DecidableEq

/-- Evaluation of an affine shape function at a point. -/
def AffineFn.eval (f : AffineFn) (x y : ℚ) : ℚ := f.a + f.b * x + f.c * y

/-- The x-component of the (constant) gradient of an affine shape function. -/
def AffineFn.gradX (f : AffineFn) : ℚ := f.b

/-- The y-component of the (constant) gradient of an affine shape function. -/
def AffineFn.gradY (f : AffineFn) : ℚ := f.c

/-- A shape function of the degree-0 space: constant on the cell, both
gradient components zero. -/
def isDegreeZero (f : AffineFn) : Prop := f.b = 0 ∧ f.c = 0

/-- A quadrature point of a cell: weight, coordinates, and the velocity
components sampled there. -/
structure QuadPt where
  w : ℚ
  x : ℚ
  y : ℚ
  ux : ℚ
  uy : ℚ
deriving DecidableEq

/-- The cell-flux term `cell_flux = -h * inner(u, grad(q)) * dx` of the
notebook, integrated over one cell by a quadrature rule: the sum over the
quadrature points of the weight times `-h · (u · ∇q)`. -/
def cellFlux (pts : List QuadPt) (h q : AffineFn) : ℚ :=
  (pts.map (fun p =>
    p.w * (-(h.eval p.x p.y) * (p.ux * q.gradX + p.uy * q.gradY)))).sum

/-- C8: for the degree-0 (piecewise-constant) space the cell-flux term
evaluates to exactly zero for every cell, every quadrature rule, and every
state, because the gradient of a constant test function is zero. -/
theorem cell_flux_degree_zero (pts : List QuadPt) (h q : AffineFn)
    (hq : isDegreeZero q) : cellFlux pts h q = 0 := by
  rw [cellFlux]
  apply List.sum_eq_zero
  intro x hx
  rcases List.mem_map.mp hx with ⟨p, _, hp⟩
  rw [← hp]
  simp [AffineFn.gradX, AffineFn.gradY, hq.1, hq.2]

/-- Witness for C8: a two-point quadrature rule, a nonconstant state and a
nonzero velocity; the cell flux against a constant test function is 0. -/
theorem cell_flux_degree_zero_witness :
    cellFlux [⟨1, 0, 0, 2, 3⟩, ⟨2, 1, 1, 4, 5⟩] ⟨7, 1, 2⟩ ⟨5, 0, 0⟩ = 0 :=
  cell_flux_degree_zero [⟨1, 0, 0, 2, 3⟩, ⟨2, 1, 1, 4, 5⟩] ⟨7, 1, 2⟩ ⟨5, 0, 0⟩ ⟨rfl, rfl⟩

/-- Witness for C4: on the concrete two-cell mesh the mass-matrix system
holds at cell 0 for the increment actually added by the step. -/
theorem mass_matrix_system_witness :
    matVec (massMatrix closedMesh) (increment closedMesh (1/4) twoCellH0 twoCellH0) 0
      = (1/4) * dhdt closedMesh twoCellH0 twoCellH0 0 :=
  (mass_matrix_system 2 closedMesh (1/4) twoCellH0 twoCellH0
    (fun _ => by norm_num [closedMesh]) 0).1
